import Mathlib

/-!
Verification development for the training orchestration engine of
`img_seg_edge.py` (Semantic-Depth repository).

The embedding models, over `ℚ` and explicit state passing:
  * the checkpoint file layout and `save_checkpoint` (retention policy),
  * the resume-marker / resume-selection logic of `main`,
  * the loss combination of the training and validation loops,
  * the `SmoothEdgeLoss` module (gradients, min-max normalization,
    smoothness and edge terms),
  * the pretrained-weight transplantation loop,
  * the learning-rate scheduler stepping policy of the epoch loop.

Floating-point tensors are modelled as rational-valued functions over `Fin`
index spaces; the unguarded min-max normalization of `SmoothEdgeLoss.forward`
(a 0/0 = NaN in the source when a gradient map is uniform) is modelled as an
`Option` returning `none` in exactly that case.
-/

/-! ## Checkpoint records and the on-disk state (img_seg_edge.py lines 426-503) -/

/-- The dictionary persisted by `save_checkpoint` (lines 436-442):
`{'epoch', 'best epoch', 'arch', 'state_dict', 'loss', 'optimizer'}`.
`loss` is `lowest_loss`, initialized to `np.inf`, hence `WithTop ℚ`.
Model and optimizer states are opaque payloads `M` and `O`. -/
structure Ckpt (M O : Type) where
  epoch : ℕ
  best_epoch : ℕ
  arch : String
  state_dict : M
  loss : WithTop ℚ
  optimizer : O
deriving DecidableEq

/-- The save directory: `ckpt e` is the content of
`checkpoint_model_epoch_{e}.pth.tar` when present, and `best` lists the
`model_best_epoch_{e}.pth.tar` files in `glob` order. -/
structure FS (M O : Type) where
  ckpt : ℕ → Option (Ckpt M O)
  best : List (ℕ × Ckpt M O)

variable {M O : Type}

/-- A fresh save directory. -/
def emptyFS : FS M O := ⟨fun _ => none, []⟩

/-- `shutil.copyfile` onto `model_best_epoch_{e}`: overwrites the file if it
already exists, otherwise creates it (appended in glob order). -/
def upsertBest (e : ℕ) (s : Ckpt M O) : List (ℕ × Ckpt M O) → List (ℕ × Ckpt M O)
  | [] => [(e, s)]
  | p :: rest => if p.1 = e then (e, s) :: rest else p :: upsertBest e s rest

/-- `save_checkpoint(state, to_copy, epoch)` (lines 489-502):
writes `checkpoint_model_epoch_{epoch}`; if `to_copy` and `epoch > 0` removes
the first `model_best*` glob hit (if any), then copies the new checkpoint to
`model_best_epoch_{epoch}`; finally, if `epoch > 0`, removes
`checkpoint_model_epoch_{epoch-1}` when it exists. -/
def save_checkpoint (fs : FS M O) (state : Ckpt M O) (to_copy : Bool) (epoch : ℕ) : FS M O :=
  let fs1 : FS M O := { fs with ckpt := fun e => if e = epoch then some state else fs.ckpt e }
  let fs2 : FS M O :=
    if to_copy then
      let fs3 := if 0 < epoch then { fs1 with best := fs1.best.tail } else fs1
      { fs3 with best := upsertBest epoch state fs3.best }
    else fs1
  if 0 < epoch then { fs2 with ckpt := fun e => if e = epoch - 1 then none else fs2.ckpt e }
  else fs2

/-- Run `save_checkpoint` for successive epochs `e0, e0+1, ...`, with
`states e` the record saved at epoch `e` and one `Bool` flag (`to_copy`)
per epoch. -/
def runSavesAux (states : ℕ → Ckpt M O) (fs : FS M O) (e0 : ℕ) : List Bool → FS M O
  | [] => fs
  | b :: bs => runSavesAux states (save_checkpoint fs (states e0) b e0) (e0 + 1) bs

/-- N successive `save_checkpoint` calls for epochs `0 .. flags.length - 1`
starting from an empty save directory. -/
def runSaves (states : ℕ → Ckpt M O) (flags : List Bool) : FS M O :=
  runSavesAux states emptyFS 0 flags

/-! ## Resume logic (lines 222-248, 427-442) -/

/-- Modelled from the spec: `first_run` (Utils.utils, not under src/) reads the
resume marker file `first_run.txt` and returns the epoch it records, or none
when the marker is absent ("Resume marker: a single small file recording the
last successfully completed epoch index"). -/
def first_run (marker : Option ℕ) : Option ℕ := marker

/-- Outcome tag of the resume branch of `main` (lines 229-248). -/
inductive ResumeTag where
  | resumed : ResumeTag
  | noCkptFound : ResumeTag
  | freshStart : ResumeTag
deriving DecidableEq

/-- The resume branch of `main` (lines 229-248): entered only when the marker
is truthy and neither `--test_mode` nor `--evaluate` is set; when the
checkpoint file for the marker's epoch exists, `args.start_epoch` is set to the
stored `'epoch'` field; when it is missing the condition is logged and
`start_epoch` keeps its prior value. Returns (outcome tag, start epoch). -/
def resumeStep (marker : Option ℕ) (test_mode evaluate : Bool) (ck : ℕ → Option (Ckpt M O))
    (start_epoch : ℕ) : ResumeTag × ℕ :=
  match marker with
  | none => (ResumeTag.freshStart, start_epoch)
  | some e =>
    if test_mode = false ∧ evaluate = false then
      match ck e with
      | some c => (ResumeTag.resumed, c.epoch)
      | none => (ResumeTag.noCkptFound, start_epoch)
    else (ResumeTag.freshStart, start_epoch)

/-- On-disk state of one run: the save directory plus the resume marker. -/
structure TrainerDisk (M O : Type) where
  fs : FS M O
  marker : Option ℕ

/-- End of the loop body for loop index `e` (lines 427-442): `first_run.txt`
is (over)written with `str(epoch)` and `save_checkpoint` is called with
`'epoch': epoch + 1` and filename epoch `epoch`. -/
def epochEnd (ds : TrainerDisk M O) (e best_ep : ℕ) (arch : String) (sd : M)
    (low : WithTop ℚ) (opt : O) (to_save : Bool) : TrainerDisk M O :=
  { fs := save_checkpoint ds.fs
      { epoch := e + 1, best_epoch := best_ep, arch := arch,
        state_dict := sd, loss := low, optimizer := opt } to_save e
    marker := some e }

/-- `for epoch in range(args.start_epoch, args.nepochs)` (line 313): the first
executed loop index, if any. -/
def nextExecutedEpoch (start_epoch nepochs : ℕ) : Option ℕ :=
  if start_epoch < nepochs then some start_epoch else none

/-! ## Loss combination (lines 96-100, 353-358, 464-468) -/

/-- The five static loss weights (`--wcoarse` etc., lines 96-100). -/
structure LossWeights where
  wcoarse : ℚ
  wcls : ℚ
  wdepth : ℚ
  wseg : ℚ
  wedge : ℚ

/-- The argparse defaults: coarse 0.07, cls 0.07, depth 0.1, seg 5, edge 5. -/
def defaultLossWeights : LossWeights :=
  { wcoarse := 7/100, wcls := 7/100, wdepth := 1/10, wseg := 5, wedge := 5 }

/-- The five per-batch sub-losses. -/
structure SubLosses where
  coarse : ℚ
  cls : ℚ
  depth : ℚ
  seg : ℚ
  edge : ℚ

/-- Training-batch combined loss (line 358). -/
def trainCombinedLoss (a : LossWeights) (l : SubLosses) : ℚ :=
  a.wcoarse * l.coarse + a.wcls * l.cls + a.wdepth * l.depth + a.wseg * l.seg + a.wedge * l.edge

/-- Validation-batch combined loss (line 468): the edge term is omitted. -/
def validateCombinedLoss (a : LossWeights) (l : SubLosses) : ℚ :=
  a.wcoarse * l.coarse + a.wcls * l.cls + a.wdepth * l.depth + a.wseg * l.seg

/-! ## Scheduler stepping policy (lines 313-321, 421-428, 436-442) -/

/-- Observable events of one epoch-loop body, in program order. -/
inductive TrainEv where
  | schedStepPlain : TrainEv
  | schedStepMetric : ℚ → TrainEv
  | trainPhase : TrainEv
  | validPhase : TrainEv
  | writeMarker : ℕ → TrainEv
  | saveCkptEv : TrainEv
deriving DecidableEq

/-- The event trace of one iteration of the epoch loop (lines 313-442):
a plain `scheduler.step()` first when the policy is non-null and not
`'plateau'` (lines 318-319); training batches; validation; then
`scheduler.step(total_score)` exactly when the policy is `'plateau'`
(lines 421-422); then marker write and checkpoint save. -/
def epochTrace (policy : Option String) (e : ℕ) (score : ℚ) : List TrainEv :=
  (if policy ≠ none ∧ policy ≠ some "plateau" then [TrainEv.schedStepPlain] else [])
    ++ [TrainEv.trainPhase, TrainEv.validPhase]
    ++ (if policy = some "plateau" then [TrainEv.schedStepMetric score] else [])
    ++ [TrainEv.writeMarker e, TrainEv.saveCkptEv]

/-- Whether an event is a scheduler step of either kind. -/
def isSchedStep : TrainEv → Bool
  | TrainEv.schedStepPlain => true
  | TrainEv.schedStepMetric _ => true
  | _ => false

/-! ## Pretrained-weight transplantation (lines 281-310) -/

/-- A serialized parameter: its shape and its payload. -/
structure Param where
  shape : List ℕ
  data : List ℚ
deriving DecidableEq

/-- `target_state[mono_name].copy_(val)`: replaces the payload of the named
entry, keeping its shape. -/
def updateParam (n : String) (v : Param) : List (String × Param) → List (String × Param) :=
  List.map fun p => if p.1 = n then (p.1, { shape := p.2.shape, data := v.data }) else p

/-- One iteration of the transplantation loop (lines 288-296 resp. 302-308):
drop the first `dropN` characters of the source name (`name[7:]` for the
backbone branch, the name itself for the external branch); skip the entry if
the resulting name is absent from the target; attempt `copy_`, which raises
`RuntimeError` on shape mismatch, in which case the entry is skipped. -/
def transplantEntry (dropN : ℕ) (target : List (String × Param)) (nv : String × Param) :
    List (String × Param) :=
  match List.lookup (nv.1.drop dropN) target with
  | none => target
  | some p => if p.shape = nv.2.shape then updateParam (nv.1.drop dropN) nv.2 target else target

/-- The backbone pretrained-loading block (lines 283-297): iterate the source
state dict with the 7-character multi-GPU prefix stripped, then print
`'Successfully loaded pretrained model'` unconditionally. -/
def loadPretrainedBackbone (target source : List (String × Param)) :
    List (String × Param) × String :=
  (source.foldl (transplantEntry 7) target, "Successfully loaded pretrained model")

/-! ## Tensor embedding for SmoothEdgeLoss (lines 128-157) -/

/-- A rational-valued tensor of shape (B, C, H, W). -/
def Tensor4 (B C H W : ℕ) : Type := Fin B → Fin C → Fin H → Fin W → ℚ

variable {B C H W : ℕ}

/-- The constant tensor. -/
def constT (B C H W : ℕ) (q : ℚ) : Tensor4 B C H W := fun _ _ _ _ => q

/-- Horizontal absolute gradient:
`torch.abs(t[:, :, :, :-1] - t[:, :, :, 1:])` (lines 138, 141, 146). -/
def gradAbsX (t : Tensor4 B C H W) : Tensor4 B C H (W - 1) := fun b c i j =>
  |t b c i ⟨j.1, Nat.lt_of_lt_of_le j.isLt (Nat.sub_le W 1)⟩
    - t b c i ⟨j.1 + 1, Nat.add_lt_of_lt_sub j.isLt⟩|

/-- Vertical absolute gradient:
`torch.abs(t[:, :, :-1, :] - t[:, :, 1:, :])` (lines 139, 142, 147). -/
def gradAbsY (t : Tensor4 B C H W) : Tensor4 B C (H - 1) W := fun b c i j =>
  |t b c ⟨i.1, Nat.lt_of_lt_of_le i.isLt (Nat.sub_le H 1)⟩ j
    - t b c ⟨i.1 + 1, Nat.add_lt_of_lt_sub i.isLt⟩ j|

/-- Channel mean with `keepdim=True`: `torch.mean(t, 1, keepdim=True)`. -/
def meanC (t : Tensor4 B C H W) : Tensor4 B 1 H W := fun b _ i j =>
  (∑ c : Fin C, t b c i j) / (C : ℚ)

/-- All entries of a tensor as a list. -/
def tvals (t : Tensor4 B C H W) : List ℚ :=
  List.flatten (List.ofFn fun b =>
    List.flatten (List.ofFn fun c =>
      List.flatten (List.ofFn fun i =>
        List.ofFn fun j => t b c i j)))

/-- `torch.max` over all entries (`none` on an empty tensor, where torch
raises). -/
def qmax : List ℚ → Option ℚ
  | [] => none
  | a :: l => some (l.foldl max a)

/-- `torch.min` over all entries (`none` on an empty tensor, where torch
raises). -/
def qmin : List ℚ → Option ℚ
  | [] => none
  | a :: l => some (l.foldl min a)

/-- `torch.mean` over all entries. -/
def tmean (t : Tensor4 B C H W) : ℚ :=
  (∑ b : Fin B, ∑ c : Fin C, ∑ i : Fin H, ∑ j : Fin W, t b c i j) / ((B * C * H * W : ℕ) : ℚ)

/-- The per-batch min-max normalization `(g - g.min()) / (g.max() - g.min())`
(lines 143-144, 148-149). The source performs the division unguarded; when the
tensor is uniform (max = min) the float result is NaN, modelled here as
`none`; likewise `none` on an empty tensor, where `torch.min` raises. -/
def minmaxNorm (t : Tensor4 B C H W) : Option (Tensor4 B C H W) :=
  match qmax (tvals t), qmin (tvals t) with
  | some mx, some mn =>
    if mx = mn then none
    else some fun b c i j => (t b c i j - mn) / (mx - mn)
  | _, _ => none

namespace SmoothEdgeLoss

/-- `self.alpha = 0.5` (line 131). -/
def alpha : ℚ := 0.5

/-- `self.beta = 0.5` (line 132). -/
def beta : ℚ := 0.5

/-- The per-pixel smoothness factor `torch.max(0, grad_depth - alpha)`
(lines 152-153). -/
def smoothFactor (g : ℚ) : ℚ := max 0 (g - alpha)

/-- The per-pixel edge factor `torch.max(0, beta - grad_depth)`
(lines 154-155). -/
def edgeFactor (g : ℚ) : ℚ := max 0 (beta - g)

/-- `mask_foregroud = (segGt == 5) | (segGt == 7)` and
`torch.where(mask_foregroud, segGt, 0)` (lines 135-136). -/
def seg_foregroud (t : Tensor4 B C H W) : Tensor4 B C H W := fun b c i j =>
  if t b c i j = 5 ∨ t b c i j = 7 then t b c i j else 0

variable {Cd Ci Cs : ℕ}

/-- A smoothness term `max(0, grad_depth - alpha) * (1 - grad_img)`, with
the single-channel image-gradient map broadcast over the depth channels
(lines 152-153; one definition serves both directions). -/
def smoothTerm (gd : Tensor4 B Cd H W) (gi : Tensor4 B 1 H W) : Tensor4 B Cd H W :=
  fun b c i j => smoothFactor (gd b c i j) * (1 - gi b 0 i j)

/-- An edge term `max(0, beta - grad_depth) * grad_seg`, with the
single-channel segmentation-gradient map broadcast over the depth channels
(lines 154-155; one definition serves both directions). -/
def edgeTerm (gd : Tensor4 B Cd H W) (gs : Tensor4 B 1 H W) : Tensor4 B Cd H W :=
  fun b c i j => edgeFactor (gd b c i j) * gs b 0 i j

/-- `SmoothEdgeLoss.forward(depthPred, img, segGt)` (lines 134-157):
depth gradients, masked segmentation gradients and image gradients (each of
the latter channel-averaged and min-max normalized), then
`smoothX.mean() + smoothY.mean() + edgeX.mean() + edgeY.mean()`.
Returns `none` when any normalization is the source's unguarded 0/0. -/
def forward (d : Tensor4 B Cd H W) (img : Tensor4 B Ci H W) (segGt : Tensor4 B Cs H W) :
    Option ℚ :=
  match minmaxNorm (meanC (gradAbsX (seg_foregroud segGt))),
      minmaxNorm (meanC (gradAbsY (seg_foregroud segGt))),
      minmaxNorm (meanC (gradAbsX img)), minmaxNorm (meanC (gradAbsY img)) with
  | some nsx, some nsy, some nix, some niy =>
    some (tmean (smoothTerm (gradAbsX d) nix) + tmean (smoothTerm (gradAbsY d) niy)
      + tmean (edgeTerm (gradAbsX d) nsx) + tmean (edgeTerm (gradAbsY d) nsy))
  | _, _, _, _ => none

end SmoothEdgeLoss

/-! ## Concrete tensors used in counterexamples and witnesses -/

/-- A constant-zero 1×1×2×3 depth prediction. -/
def depthEx : Tensor4 1 1 2 3 := constT 1 1 2 3 0

/-- A 1×1×2×3 image with a single bright pixel at (0,1). -/
def imgEx : Tensor4 1 1 2 3 := fun _ _ i j => if i.1 = 0 ∧ j.1 = 1 then 1 else 0

/-- A 1×1×2×3 segmentation with one foreground (class 5) pixel at (0,0). -/
def segEx : Tensor4 1 1 2 3 := fun _ _ i j => if i.1 = 0 ∧ j.1 = 0 then 5 else 0

/-- A uniform all-background 1×1×2×3 segmentation. -/
def segZero : Tensor4 1 1 2 3 := constT 1 1 2 3 0


/-! ## Abstract deterministic continuation of training (for round-trip) -/

/-- An abstract deterministic training step: from a (model, optimizer) state
and a batch to the next state and that batch's loss; `runLosses` is the list
of losses produced by continuing training over a batch sequence. -/
def runLosses {σ β : Type} (step : σ → β → σ × ℚ) : σ → List β → List ℚ
  | _, [] => []
  | s, b :: bs => (step s b).2 :: runLosses step (step s b).1 bs

/-! ## Helper lemmas: save_checkpoint characterization -/

lemma save_checkpoint_ckpt_pos (fs : FS M O) (s : Ckpt M O) (b : Bool) (e : ℕ) (he : 0 < e) :
    (save_checkpoint fs s b e).ckpt
      = fun x => if x = e - 1 then none else if x = e then some s else fs.ckpt x := by
  cases b <;> simp [save_checkpoint, he]

lemma save_checkpoint_ckpt_zero (fs : FS M O) (s : Ckpt M O) (b : Bool) :
    (save_checkpoint fs s b 0).ckpt = fun x => if x = 0 then some s else fs.ckpt x := by
  cases b <;> simp [save_checkpoint]

lemma save_checkpoint_best_pos (fs : FS M O) (s : Ckpt M O) (b : Bool) (e : ℕ) (he : 0 < e) :
    (save_checkpoint fs s b e).best
      = if b then upsertBest e s fs.best.tail else fs.best := by
  cases b <;> simp [save_checkpoint, he]

lemma save_checkpoint_best_zero (fs : FS M O) (s : Ckpt M O) (b : Bool) :
    (save_checkpoint fs s b 0).best = if b then upsertBest 0 s fs.best else fs.best := by
  cases b <;> simp [save_checkpoint]

lemma save_checkpoint_ckpt_pos_apply (fs : FS M O) (s : Ckpt M O) (b : Bool) (e : ℕ)
    (he : 0 < e) (x : ℕ) :
    (save_checkpoint fs s b e).ckpt x
      = if x = e - 1 then none else if x = e then some s else fs.ckpt x := by
  rw [save_checkpoint_ckpt_pos fs s b e he]

lemma save_checkpoint_ckpt_zero_apply (fs : FS M O) (s : Ckpt M O) (b : Bool) (x : ℕ) :
    (save_checkpoint fs s b 0).ckpt x = if x = 0 then some s else fs.ckpt x := by
  rw [save_checkpoint_ckpt_zero]

lemma save_checkpoint_ckpt_self (fs : FS M O) (s : Ckpt M O) (b : Bool) (e : ℕ) :
    (save_checkpoint fs s b e).ckpt e = some s := by
  rcases Nat.eq_zero_or_pos e with he | he
  · subst he; rw [save_checkpoint_ckpt_zero]; simp
  · rw [save_checkpoint_ckpt_pos fs s b e he]
    have h1 : ¬(e = e - 1) := by omega
    simp [h1]

lemma tail_eq_nil_of_length_le_one {α : Type} {l : List α} (h : l.length ≤ 1) :
    l.tail = [] := by
  cases l with
  | nil => rfl
  | cons a t =>
    cases t with
    | nil => rfl
    | cons a2 t2 => simp at h

/-! ## Helper lemmas: list max / min -/

lemma qle_foldl_max (l : List ℚ) : ∀ a : ℚ, a ≤ l.foldl max a := by
  induction l with
  | nil => intro a; exact le_refl a
  | cons c l ih =>
    intro a
    simp only [List.foldl_cons]
    exact le_trans (le_max_left a c) (ih (max a c))

lemma qle_foldl_max_of_mem (l : List ℚ) : ∀ (a x : ℚ), x ∈ l → x ≤ l.foldl max a := by
  induction l with
  | nil => intro a x hx; cases hx
  | cons c l ih =>
    intro a x hx
    simp only [List.foldl_cons]
    rcases List.mem_cons.mp hx with h | h
    · subst h; exact le_trans (le_max_right a x) (qle_foldl_max l _)
    · exact ih (max a c) x h

lemma qfoldl_max_mem (l : List ℚ) : ∀ a : ℚ, l.foldl max a = a ∨ l.foldl max a ∈ l := by
  induction l with
  | nil => intro a; exact Or.inl rfl
  | cons c l ih =>
    intro a
    simp only [List.foldl_cons]
    rcases ih (max a c) with h | h
    · rcases max_choice a c with hm | hm
      · left; rw [h, hm]
      · right; rw [h, hm]; exact List.mem_cons_self c l
    · right; exact List.mem_cons_of_mem c h

lemma qfoldl_min_le (l : List ℚ) : ∀ a : ℚ, l.foldl min a ≤ a := by
  induction l with
  | nil => intro a; exact le_refl a
  | cons c l ih =>
    intro a
    simp only [List.foldl_cons]
    exact le_trans (ih (min a c)) (min_le_left a c)

lemma qfoldl_min_le_of_mem (l : List ℚ) : ∀ (a x : ℚ), x ∈ l → l.foldl min a ≤ x := by
  induction l with
  | nil => intro a x hx; cases hx
  | cons c l ih =>
    intro a x hx
    simp only [List.foldl_cons]
    rcases List.mem_cons.mp hx with h | h
    · subst h; exact le_trans (qfoldl_min_le l _) (min_le_right a x)
    · exact ih (min a c) x h

lemma qfoldl_min_mem (l : List ℚ) : ∀ a : ℚ, l.foldl min a = a ∨ l.foldl min a ∈ l := by
  induction l with
  | nil => intro a; exact Or.inl rfl
  | cons c l ih =>
    intro a
    simp only [List.foldl_cons]
    rcases ih (min a c) with h | h
    · rcases min_choice a c with hm | hm
      · left; rw [h, hm]
      · right; rw [h, hm]; exact List.mem_cons_self c l
    · right; exact List.mem_cons_of_mem c h

lemma qmax_spec {l : List ℚ} {mx : ℚ} (h : qmax l = some mx) :
    mx ∈ l ∧ ∀ x ∈ l, x ≤ mx := by
  cases l with
  | nil => simp [qmax] at h
  | cons a l =>
    simp only [qmax, Option.some.injEq] at h
    subst h
    constructor
    · rcases qfoldl_max_mem l a with h | h
      · rw [h]; exact List.mem_cons_self a l
      · exact List.mem_cons_of_mem a h
    · intro x hx
      rcases List.mem_cons.mp hx with h | h
      · subst h; exact qle_foldl_max l x
      · exact qle_foldl_max_of_mem l a x h

lemma qmin_spec {l : List ℚ} {mn : ℚ} (h : qmin l = some mn) :
    mn ∈ l ∧ ∀ x ∈ l, mn ≤ x := by
  cases l with
  | nil => simp [qmin] at h
  | cons a l =>
    simp only [qmin, Option.some.injEq] at h
    subst h
    constructor
    · rcases qfoldl_min_mem l a with h | h
      · rw [h]; exact List.mem_cons_self a l
      · exact List.mem_cons_of_mem a h
    · intro x hx
      rcases List.mem_cons.mp hx with h | h
      · subst h; exact qfoldl_min_le l x
      · exact qfoldl_min_le_of_mem l a x h

lemma qfoldl_max_const (q : ℚ) : ∀ l : List ℚ, (∀ x ∈ l, x = q) → l.foldl max q = q := by
  intro l
  induction l with
  | nil => intro _; rfl
  | cons c l ih =>
    intro h
    have hc : c = q := h c (List.mem_cons_self c l)
    simp only [List.foldl_cons, hc, max_self]
    exact ih fun x hx => h x (List.mem_cons_of_mem c hx)

lemma qfoldl_min_const (q : ℚ) : ∀ l : List ℚ, (∀ x ∈ l, x = q) → l.foldl min q = q := by
  intro l
  induction l with
  | nil => intro _; rfl
  | cons c l ih =>
    intro h
    have hc : c = q := h c (List.mem_cons_self c l)
    simp only [List.foldl_cons, hc, min_self]
    exact ih fun x hx => h x (List.mem_cons_of_mem c hx)

lemma qmax_uniform {l : List ℚ} {q : ℚ} (hne : l ≠ []) (h : ∀ x ∈ l, x = q) :
    qmax l = some q := by
  cases l with
  | nil => exact absurd rfl hne
  | cons a l =>
    have ha : a = q := h a (List.mem_cons_self a l)
    simp only [qmax, Option.some.injEq, ha]
    exact qfoldl_max_const q l fun x hx => h x (List.mem_cons_of_mem a hx)

lemma qmin_uniform {l : List ℚ} {q : ℚ} (hne : l ≠ []) (h : ∀ x ∈ l, x = q) :
    qmin l = some q := by
  cases l with
  | nil => exact absurd rfl hne
  | cons a l =>
    have ha : a = q := h a (List.mem_cons_self a l)
    simp only [qmin, Option.some.injEq, ha]
    exact qfoldl_min_const q l fun x hx => h x (List.mem_cons_of_mem a hx)

/-! ## Helper lemmas: tensor values -/

lemma mem_tvals (t : Tensor4 B C H W) (b : Fin B) (c : Fin C) (i : Fin H) (j : Fin W) :
    t b c i j ∈ tvals t := by
  unfold tvals
  refine List.mem_flatten.mpr ⟨_, (List.mem_ofFn _ _).mpr ⟨b, rfl⟩, ?_⟩
  refine List.mem_flatten.mpr ⟨_, (List.mem_ofFn _ _).mpr ⟨c, rfl⟩, ?_⟩
  refine List.mem_flatten.mpr ⟨_, (List.mem_ofFn _ _).mpr ⟨i, rfl⟩, ?_⟩
  exact (List.mem_ofFn _ _).mpr ⟨j, rfl⟩

lemma eq_of_mem_tvals {t : Tensor4 B C H W} {x : ℚ} (h : x ∈ tvals t) :
    ∃ b c i j, t b c i j = x := by
  unfold tvals at h
  obtain ⟨lb, hlb, h⟩ := List.mem_flatten.mp h
  obtain ⟨b, hb⟩ := (List.mem_ofFn _ _).mp hlb
  subst hb
  obtain ⟨lc, hlc, h⟩ := List.mem_flatten.mp h
  obtain ⟨c, hc⟩ := (List.mem_ofFn _ _).mp hlc
  subst hc
  obtain ⟨li, hli, h⟩ := List.mem_flatten.mp h
  obtain ⟨i, hi⟩ := (List.mem_ofFn _ _).mp hli
  subst hi
  obtain ⟨j, hj⟩ := (List.mem_ofFn _ _).mp h
  exact ⟨b, c, i, j, hj⟩

/-! ## Helper lemma: the retention invariant of repeated saves -/

lemma runSavesAux_invariant (states : ℕ → Ckpt M O) :
    ∀ (bs : List Bool) (fs : FS M O) (e0 : ℕ) (seen : Bool),
      1 ≤ e0 →
      (∀ x, ((fs.ckpt x).isSome ↔ x = e0 - 1)) →
      fs.best.length = (if seen = true then 1 else 0) →
      ((runSavesAux states fs e0 bs).best.length =
          if seen = true ∨ 0 < bs.count true then 1 else 0) ∧
      (∀ x, (((runSavesAux states fs e0 bs).ckpt x).isSome ↔ x = e0 + bs.length - 1)) ∧
      (∀ k, (runSavesAux states fs e0 (bs.take k)).best.length ≤ 1) := by
  intro bs
  induction bs with
  | nil =>
    intro fs e0 seen he0 hck hbest
    refine ⟨?_, ?_, ?_⟩
    · simpa [runSavesAux] using hbest
    · intro x; simpa [runSavesAux] using hck x
    · intro k
      simp only [List.take_nil, runSavesAux]
      cases seen <;> simp_all
  | cons b bs ih =>
    intro fs e0 seen he0 hck hbest
    set fs2 := save_checkpoint fs (states e0) b e0 with hfs2
    have hck2 : ∀ x, ((fs2.ckpt x).isSome ↔ x = (e0 + 1) - 1) := by
      intro x
      rw [hfs2, save_checkpoint_ckpt_pos_apply fs (states e0) b e0 (by omega) x]
      by_cases h1 : x = e0 - 1
      · rw [if_pos h1]
        simp only [Option.isSome_none, Bool.false_eq_true, false_iff]
        omega
      · rw [if_neg h1]
        by_cases h2 : x = e0
        · simp [h2]
        · rw [if_neg h2]
          rw [hck x]
          constructor
          · intro h; exact absurd h h1
          · intro h; omega
    have hbest2 : fs2.best.length = (if (seen || b) = true then 1 else 0) := by
      rw [hfs2, save_checkpoint_best_pos fs (states e0) b e0 (by omega)]
      cases b with
      | false => simpa using hbest
      | true =>
        have htail : fs.best.tail = [] := by
          apply tail_eq_nil_of_length_le_one
          rw [hbest]; cases seen <;> simp
        simp [htail, upsertBest]
    obtain ⟨ihbest, ihck, ihtake⟩ :=
      ih fs2 (e0 + 1) (seen || b) (by omega) hck2 hbest2
    refine ⟨?_, ?_, ?_⟩
    · rw [show runSavesAux states fs e0 (b :: bs) = runSavesAux states fs2 (e0 + 1) bs from rfl]
      rw [ihbest]
      have hcond : ((seen || b) = true ∨ 0 < bs.count true) ↔
          (seen = true ∨ 0 < (b :: bs).count true) := by
        cases b <;> cases seen <;> simp [List.count_cons]
      by_cases h : (seen || b) = true ∨ 0 < bs.count true
      · rw [if_pos h, if_pos (hcond.mp h)]
      · rw [if_neg h, if_neg fun hc => h (hcond.mpr hc)]
    · intro x
      rw [show runSavesAux states fs e0 (b :: bs) = runSavesAux states fs2 (e0 + 1) bs from rfl]
      rw [ihck x]
      constructor <;> intro h <;> simp only [List.length_cons] at * <;> omega
    · intro k
      cases k with
      | zero =>
        simp only [List.take_zero, runSavesAux]
        rw [hbest]; cases seen <;> simp
      | succ k =>
        rw [show (b :: bs).take (k + 1) = b :: bs.take k from rfl]
        rw [show runSavesAux states fs e0 (b :: bs.take k)
            = runSavesAux states fs2 (e0 + 1) (bs.take k) from rfl]
        exact ihtake k

/-! ## Claims -/

/-- C1: after any sequence of N successive `save_checkpoint` calls for epochs
0..N-1 with exactly one call passing `is_best = true`, exactly one epoch
checkpoint file (the newest, epoch N-1) plus exactly one best file remain on
disk, all intermediate epoch files having been removed; and after every prefix
of the call sequence at most one best file exists (within a call, the previous
best is removed by `List.tail` before the new best is written by
`upsertBest`). -/
theorem claim_C1_retention (states : ℕ → Ckpt M O) (flags : List Bool)
    (hlen : 0 < flags.length) (hone : flags.count true = 1) :
    ((runSaves states flags).best.length = 1) ∧
    (∀ x, (((runSaves states flags).ckpt x).isSome ↔ x = flags.length - 1)) ∧
    (∀ k, (runSaves states (flags.take k)).best.length ≤ 1) := by
  cases flags with
  | nil => simp at hlen
  | cons b rest =>
    set fs0 := save_checkpoint emptyFS (states 0) b 0 with hfs0
    have h0ck : ∀ x, ((fs0.ckpt x).isSome ↔ x = (0 + 1) - 1) := by
      intro x
      rw [hfs0, save_checkpoint_ckpt_zero_apply]
      by_cases hx : x = 0
      · simp [hx]
      · simp [hx, emptyFS]
    have h0best : fs0.best.length = (if b = true then 1 else 0) := by
      rw [hfs0, save_checkpoint_best_zero]
      cases b <;> simp [emptyFS, upsertBest]
    obtain ⟨ibest, ick, itake⟩ :=
      runSavesAux_invariant states rest fs0 1 b (le_refl 1) h0ck h0best
    have hrun : runSaves states (b :: rest) = runSavesAux states fs0 1 rest := rfl
    refine ⟨?_, ?_, ?_⟩
    · rw [hrun, ibest, if_pos]
      rcases Bool.eq_false_or_eq_true b with hb | hb
      · exact Or.inl hb
      · subst hb
        right
        simp [List.count_cons] at hone
        omega
    · intro x
      rw [hrun, ick x]
      simp only [List.length_cons]
      omega
    · intro k
      cases k with
      | zero => simp [runSaves, runSavesAux, emptyFS]
      | succ k =>
        rw [show (b :: rest).take (k + 1) = b :: rest.take k from rfl]
        rw [show runSaves states (b :: rest.take k)
            = runSavesAux states fs0 1 (rest.take k) from rfl]
        exact itake k

/-- A concrete checkpoint record over trivial payloads, for witnesses. -/
def ckExC1 : Ckpt ℕ ℕ :=
  { epoch := 1, best_epoch := 1, arch := "sdn", state_dict := 0, loss := 1, optimizer := 0 }

/-- Witness for C1 at the concrete flag sequence [false, true, false]. -/
theorem claim_C1_witness :
    (0 < ([false, true, false] : List Bool).length) ∧
    (([false, true, false] : List Bool).count true = 1) ∧
    (((runSaves (fun _ => ckExC1) [false, true, false]).best.length = 1) ∧
      (∀ x, (((runSaves (fun _ => ckExC1) [false, true, false]).ckpt x).isSome
        ↔ x = ([false, true, false] : List Bool).length - 1)) ∧
      (∀ k, (runSaves (fun _ => ckExC1) (([false, true, false] : List Bool).take k)).best.length
        ≤ 1)) :=
  ⟨by decide, by decide,
    claim_C1_retention (fun _ => ckExC1) [false, true, false] (by decide) (by decide)⟩

/-- A run state after completing loop epoch 3: the marker records 3 and
`checkpoint_model_epoch_3` holds `'epoch': 4`. -/
def TDexample : TrainerDisk ℕ ℕ :=
  epochEnd (M := ℕ) (O := ℕ) ⟨emptyFS, none⟩ 3 2 "sdn" 0 1 0 true

/-- C2 counterexample: with resume marker value E = 3 and the epoch-3
checkpoint file present (both produced by the program itself at the end of
loop epoch 3), the resume branch sets the start epoch to the stored
`'epoch'` field 3 + 1 = 4, so the next executed epoch index is 4, not 3. -/
theorem claim_C2_counterexample :
    first_run TDexample.marker = some 3 ∧
    (TDexample.fs.ckpt 3).isSome = true ∧
    (resumeStep (first_run TDexample.marker) false false TDexample.fs.ckpt 0).2 = 4 ∧
    ¬((resumeStep (first_run TDexample.marker) false false TDexample.fs.ckpt 0).2 = 3) ∧
    nextExecutedEpoch
      (resumeStep (first_run TDexample.marker) false false TDexample.fs.ckpt 0).2 150
      = some 4 := by
  refine ⟨rfl, ?_, ?_, ?_, ?_⟩ <;>
    simp [TDexample, epochEnd, save_checkpoint, resumeStep, first_run, emptyFS,
      nextExecutedEpoch]

/-- C2 amended: if the resume marker records epoch E (written as the last
completed loop index) and the checkpoint file for epoch E exists (as written
by the same loop iteration, with stored `'epoch'` field E + 1), then the
Trainer's next executed epoch index is E + 1 — the epoch after the recorded
completed one — not E and not 0. -/
theorem claim_C2_amended (M O : Type) (ds0 : TrainerDisk M O) (E best_ep : ℕ)
    (arch : String) (sd : M) (low : WithTop ℚ) (opt : O) (ts : Bool) (nepochs : ℕ)
    (hE : E + 1 < nepochs) :
    (resumeStep (first_run (epochEnd ds0 E best_ep arch sd low opt ts).marker) false false
        (epochEnd ds0 E best_ep arch sd low opt ts).fs.ckpt 0)
      = (ResumeTag.resumed, E + 1) ∧
    nextExecutedEpoch
      (resumeStep (first_run (epochEnd ds0 E best_ep arch sd low opt ts).marker) false false
        (epochEnd ds0 E best_ep arch sd low opt ts).fs.ckpt 0).2 nepochs
      = some (E + 1) := by
  have hmk : (epochEnd ds0 E best_ep arch sd low opt ts).marker = some E := rfl
  have hck : (epochEnd ds0 E best_ep arch sd low opt ts).fs.ckpt E
      = some { epoch := E + 1, best_epoch := best_ep, arch := arch,
               state_dict := sd, loss := low, optimizer := opt } :=
    save_checkpoint_ckpt_self ds0.fs _ ts E
  constructor
  · rw [first_run, hmk]
    simp [resumeStep, hck]
  · rw [first_run, hmk]
    simp [resumeStep, hck, nextExecutedEpoch, hE]

/-- Witness for C2 amended at E = 3, nepochs = 150. -/
theorem claim_C2_witness :
    (3 + 1 < 150) ∧
    ((resumeStep (first_run (epochEnd (M := ℕ) (O := ℕ) ⟨emptyFS, none⟩ 3 2 "sdn" 0 1 0
          true).marker) false false
        (epochEnd (M := ℕ) (O := ℕ) ⟨emptyFS, none⟩ 3 2 "sdn" 0 1 0 true).fs.ckpt 0)
        = (ResumeTag.resumed, 3 + 1) ∧
      nextExecutedEpoch
        (resumeStep (first_run (epochEnd (M := ℕ) (O := ℕ) ⟨emptyFS, none⟩ 3 2 "sdn" 0 1 0
            true).marker) false false
          (epochEnd (M := ℕ) (O := ℕ) ⟨emptyFS, none⟩ 3 2 "sdn" 0 1 0 true).fs.ckpt 0).2 150
        = some (3 + 1)) :=
  ⟨by norm_num,
    claim_C2_amended ℕ ℕ ⟨emptyFS, none⟩ 3 2 "sdn" 0 1 0 true 150 (by norm_num)⟩

/-- C3: the combined training loss is
`w_coarse*L_coarse + w_cls*L_cls + w_depth*L_depth + w_seg*L_seg + w_edge*L_edge`,
the validation loss omits exactly the edge term, and at the argparse default
weights {0.07, 0.07, 0.1, 5, 5} with all five sub-losses 1.0, the training
loss is 10.24 and the validation loss is 5.24. -/
theorem claim_C3_loss_combination :
    trainCombinedLoss defaultLossWeights ⟨1, 1, 1, 1, 1⟩ = 10.24 ∧
    validateCombinedLoss defaultLossWeights ⟨1, 1, 1, 1, 1⟩ = 5.24 ∧
    ∀ (a : LossWeights) (l : SubLosses),
      trainCombinedLoss a l
        = a.wcoarse * l.coarse + a.wcls * l.cls + a.wdepth * l.depth
          + a.wseg * l.seg + a.wedge * l.edge ∧
      validateCombinedLoss a l = trainCombinedLoss a l - a.wedge * l.edge := by
  refine ⟨?_, ?_, fun a l => ⟨rfl, ?_⟩⟩
  · norm_num [trainCombinedLoss, defaultLossWeights]
  · norm_num [validateCombinedLoss, defaultLossWeights]
  · simp only [trainCombinedLoss, validateCombinedLoss]
    ring

/-- C5: saving a checkpoint for epoch E and loading the epoch-E file back
returns exactly the saved record — in particular the `epoch`, `best epoch` and
`loss` (lowest score) fields — and any deterministic continuation of training
initialized from the loaded state produces the same loss sequence as one
initialized from the original state. -/
theorem claim_C5_roundtrip (fs : FS M O) (rec : Ckpt M O) (b : Bool) (E : ℕ) :
    ((save_checkpoint fs rec b E).ckpt E = some rec) ∧
    (∀ ck, (save_checkpoint fs rec b E).ckpt E = some ck →
      (ck.epoch = rec.epoch ∧ ck.best_epoch = rec.best_epoch ∧ ck.loss = rec.loss) ∧
      (∀ (σ β : Type) (step : σ → β → σ × ℚ) (init : Ckpt M O → σ) (batches : List β),
        runLosses step (init ck) batches = runLosses step (init rec) batches)) := by
  have hself := save_checkpoint_ckpt_self fs rec b E
  refine ⟨hself, fun ck hck => ?_⟩
  rw [hself] at hck
  obtain rfl : rec = ck := Option.some.inj hck
  exact ⟨⟨rfl, rfl, rfl⟩, fun σ β step init batches => rfl⟩

/-- Witness for C5 at a concrete save. -/
theorem claim_C5_witness :
    ((save_checkpoint (emptyFS (M := ℕ) (O := ℕ)) ckExC1 true 2).ckpt 2 = some ckExC1) ∧
    ((ckExC1.epoch = ckExC1.epoch ∧ ckExC1.best_epoch = ckExC1.best_epoch ∧
        ckExC1.loss = ckExC1.loss) ∧
      (∀ (σ β : Type) (step : σ → β → σ × ℚ) (init : Ckpt ℕ ℕ → σ) (batches : List β),
        runLosses step (init ckExC1) batches = runLosses step (init ckExC1) batches)) :=
  ⟨(claim_C5_roundtrip (emptyFS (M := ℕ) (O := ℕ)) ckExC1 true 2).1,
    (claim_C5_roundtrip (emptyFS (M := ℕ) (O := ℕ)) ckExC1 true 2).2 ckExC1
      (claim_C5_roundtrip (emptyFS (M := ℕ) (O := ℕ)) ckExC1 true 2).1⟩

/-- C6: the resume path is entered (outcome `resumed`) exactly when a resume
marker exists, the run is in neither test mode nor evaluate-only mode, and the
marker's checkpoint file exists; and when the marker exists, both mode flags
are off but the checkpoint file is absent, the outcome is the logged
`noCkptFound` and training starts at the prior start epoch (0 by default)
instead of crashing. -/
theorem claim_C6_resume_gating (M O : Type) (marker : Option ℕ) (t ev : Bool)
    (ck : ℕ → Option (Ckpt M O)) (s0 : ℕ) :
    ((resumeStep marker t ev ck s0).1 = ResumeTag.resumed ↔
      ∃ e c, marker = some e ∧ t = false ∧ ev = false ∧ ck e = some c) ∧
    (∀ e, marker = some e → t = false → ev = false → ck e = none →
      resumeStep marker t ev ck s0 = (ResumeTag.noCkptFound, s0)) := by
  constructor
  · cases marker with
    | none => simp [resumeStep]
    | some e =>
      by_cases hcond : t = false ∧ ev = false
      · cases hck : ck e with
        | none =>
          simp only [resumeStep, if_pos hcond, hck]
          constructor
          · intro h; cases h
          · rintro ⟨e2, c2, he2, -, -, hc2⟩
            obtain rfl : e = e2 := Option.some.inj he2
            rw [hck] at hc2; cases hc2
        | some c =>
          simp only [resumeStep, if_pos hcond, hck]
          constructor
          · intro _; exact ⟨e, c, rfl, hcond.1, hcond.2, hck⟩
          · intro _; trivial
      · simp only [resumeStep, if_neg hcond]
        constructor
        · intro h; cases h
        · rintro ⟨e2, c2, he2, ht, hev, -⟩
          exact absurd ⟨ht, hev⟩ hcond
  · intro e hm ht hev hck
    subst hm; subst ht; subst hev
    simp [resumeStep, hck]

/-- Witness for C6: marker 2 present, flags off, file absent. -/
theorem claim_C6_witness :
    ((some 2 : Option ℕ) = some 2) ∧
    resumeStep (M := ℕ) (O := ℕ) (some 2) false false (fun _ => none) 0
      = (ResumeTag.noCkptFound, 0) :=
  ⟨rfl,
    (claim_C6_resume_gating ℕ ℕ (some 2) false false (fun _ => none) 0).2 2 rfl rfl rfl rfl⟩

/-! ## Helper lemmas: constant depth in SmoothEdgeLoss -/

lemma gradAbsX_constT (B C H W : ℕ) (c : ℚ) :
    gradAbsX (constT B C H W c) = fun _ _ _ _ => (0 : ℚ) := by
  funext b ch i j
  simp [gradAbsX, constT]

lemma gradAbsY_constT (B C H W : ℕ) (c : ℚ) :
    gradAbsY (constT B C H W c) = fun _ _ _ _ => (0 : ℚ) := by
  funext b ch i j
  simp [gradAbsY, constT]

lemma smoothFactor_zero : SmoothEdgeLoss.smoothFactor 0 = 0 := by
  rw [SmoothEdgeLoss.smoothFactor, SmoothEdgeLoss.alpha]
  norm_num [max_def]

lemma tmean_zeroT (B C H W : ℕ) :
    tmean (fun _ _ _ _ => (0 : ℚ) : Tensor4 B C H W) = 0 := by
  simp [tmean]

lemma smoothTerm_zeroGrad {B Cd H W : ℕ} (gi : Tensor4 B 1 H W) :
    SmoothEdgeLoss.smoothTerm (fun _ _ _ _ => (0 : ℚ) : Tensor4 B Cd H W) gi
      = fun _ _ _ _ => (0 : ℚ) := by
  funext b ch i j
  simp [SmoothEdgeLoss.smoothTerm, smoothFactor_zero]

/-- C4 counterexample: for the constant-zero depth prediction `depthEx` and a
segmentation with one foreground pixel, `SmoothEdgeLoss.forward` evaluates to
7/24, not 0 — the smoothness terms vanish but the edge terms do not. -/
theorem claim_C4_counterexample :
    SmoothEdgeLoss.forward depthEx imgEx segEx = some (7/24) ∧
    SmoothEdgeLoss.forward depthEx imgEx segEx ≠ some 0 := by
  have h : SmoothEdgeLoss.forward depthEx imgEx segEx = some (7/24) := by
    simp [SmoothEdgeLoss.forward, minmaxNorm, tvals, qmax, qmin, meanC, gradAbsX, gradAbsY,
      SmoothEdgeLoss.seg_foregroud, depthEx, imgEx, segEx, constT, List.ofFn_succ,
      Fin.sum_univ_succ, tmean, SmoothEdgeLoss.smoothTerm, SmoothEdgeLoss.edgeTerm,
      SmoothEdgeLoss.smoothFactor, SmoothEdgeLoss.edgeFactor, SmoothEdgeLoss.alpha,
      SmoothEdgeLoss.beta, max_def, min_def]
    norm_num
  refine ⟨h, ?_⟩
  rw [h]
  intro hc
  have h0 := Option.some.inj hc
  norm_num at h0

/-- C4 amended: for every constant depth prediction, the two smoothness term
means are 0 for arbitrary image-gradient content, and whenever `forward` is
defined its value reduces to the sum of the two edge term means (β times the
mean normalized segmentation gradients) — which is nonzero in general, as the
counterexample (7/24 on `segEx`) shows; so the loss is only guaranteed 0 when
the segmentation gradients also vanish. -/
theorem claim_C4_amended (B Cd Ci Cs H W : ℕ) (c : ℚ)
    (img : Tensor4 B Ci H W) (seg : Tensor4 B Cs H W) (L : ℚ)
    (h : SmoothEdgeLoss.forward (constT B Cd H W c) img seg = some L) :
    (∀ gi : Tensor4 B 1 H (W - 1),
      tmean (SmoothEdgeLoss.smoothTerm (gradAbsX (constT B Cd H W c)) gi) = 0) ∧
    (∀ gi : Tensor4 B 1 (H - 1) W,
      tmean (SmoothEdgeLoss.smoothTerm (gradAbsY (constT B Cd H W c)) gi) = 0) ∧
    ∃ nsx nsy,
      minmaxNorm (meanC (gradAbsX (SmoothEdgeLoss.seg_foregroud seg))) = some nsx ∧
      minmaxNorm (meanC (gradAbsY (SmoothEdgeLoss.seg_foregroud seg))) = some nsy ∧
      L = tmean (SmoothEdgeLoss.edgeTerm (gradAbsX (constT B Cd H W c)) nsx)
        + tmean (SmoothEdgeLoss.edgeTerm (gradAbsY (constT B Cd H W c)) nsy) := by
  have hsX : ∀ gi : Tensor4 B 1 H (W - 1),
      tmean (SmoothEdgeLoss.smoothTerm (gradAbsX (constT B Cd H W c)) gi) = 0 := by
    intro gi
    rw [gradAbsX_constT, smoothTerm_zeroGrad, tmean_zeroT]
  have hsY : ∀ gi : Tensor4 B 1 (H - 1) W,
      tmean (SmoothEdgeLoss.smoothTerm (gradAbsY (constT B Cd H W c)) gi) = 0 := by
    intro gi
    rw [gradAbsY_constT, smoothTerm_zeroGrad, tmean_zeroT]
  refine ⟨hsX, hsY, ?_⟩
  unfold SmoothEdgeLoss.forward at h
  rcases e1 : minmaxNorm (meanC (gradAbsX (SmoothEdgeLoss.seg_foregroud seg))) with _ | nsx
  · rw [e1] at h; simp at h
  rw [e1] at h
  rcases e2 : minmaxNorm (meanC (gradAbsY (SmoothEdgeLoss.seg_foregroud seg))) with _ | nsy
  · rw [e2] at h; simp at h
  rw [e2] at h
  rcases e3 : minmaxNorm (meanC (gradAbsX img)) with _ | nix
  · rw [e3] at h; simp at h
  rw [e3] at h
  rcases e4 : minmaxNorm (meanC (gradAbsY img)) with _ | niy
  · rw [e4] at h; simp at h
  rw [e4] at h
  simp only [Option.some.injEq] at h
  refine ⟨nsx, nsy, rfl, rfl, ?_⟩
  rw [← h, hsX nix, hsY niy]
  ring

/-- Witness for C4 amended at the concrete counterexample input. -/
theorem claim_C4_witness :
    (SmoothEdgeLoss.forward (constT 1 1 2 3 0) imgEx segEx = some (7/24)) ∧
    ((∀ gi : Tensor4 1 1 2 (3 - 1),
        tmean (SmoothEdgeLoss.smoothTerm (gradAbsX (constT 1 1 2 3 0)) gi) = 0) ∧
      (∀ gi : Tensor4 1 1 (2 - 1) 3,
        tmean (SmoothEdgeLoss.smoothTerm (gradAbsY (constT 1 1 2 3 0)) gi) = 0) ∧
      ∃ nsx nsy,
        minmaxNorm (meanC (gradAbsX (SmoothEdgeLoss.seg_foregroud segEx))) = some nsx ∧
        minmaxNorm (meanC (gradAbsY (SmoothEdgeLoss.seg_foregroud segEx))) = some nsy ∧
        (7/24 : ℚ) = tmean (SmoothEdgeLoss.edgeTerm (gradAbsX (constT 1 1 2 3 0)) nsx)
          + tmean (SmoothEdgeLoss.edgeTerm (gradAbsY (constT 1 1 2 3 0)) nsy)) := by
  have h : SmoothEdgeLoss.forward (constT 1 1 2 3 0) imgEx segEx = some (7/24) := by
    simp [SmoothEdgeLoss.forward, minmaxNorm, tvals, qmax, qmin, meanC, gradAbsX, gradAbsY,
      SmoothEdgeLoss.seg_foregroud, imgEx, segEx, constT, List.ofFn_succ,
      Fin.sum_univ_succ, tmean, SmoothEdgeLoss.smoothTerm, SmoothEdgeLoss.edgeTerm,
      SmoothEdgeLoss.smoothFactor, SmoothEdgeLoss.edgeFactor, SmoothEdgeLoss.alpha,
      SmoothEdgeLoss.beta, max_def, min_def]
    norm_num
  exact ⟨h, claim_C4_amended 1 1 1 1 2 3 0 imgEx segEx (7/24) h⟩

/-! ## Helper lemmas: transplantation preserves names and shapes -/

lemma transplantEntry_keyshape (n : ℕ) (t : List (String × Param)) (nv : String × Param) :
    (transplantEntry n t nv).map (fun p => (p.1, p.2.shape))
      = t.map fun p => (p.1, p.2.shape) := by
  unfold transplantEntry
  cases hl : List.lookup (nv.1.drop n) t with
  | none => rfl
  | some p =>
    dsimp only
    by_cases hs : p.shape = nv.2.shape
    · rw [if_pos hs]
      unfold updateParam
      rw [List.map_map]
      apply List.map_congr_left
      intro q _
      by_cases hq : q.1 = nv.1.drop n <;> simp [hq]
    · rw [if_neg hs]

lemma foldl_transplant_keyshape (n : ℕ) :
    ∀ (source t : List (String × Param)),
      ((source.foldl (transplantEntry n) t).map fun p => (p.1, p.2.shape))
        = t.map fun p => (p.1, p.2.shape) := by
  intro source
  induction source with
  | nil => intro t; rfl
  | cons a source ih =>
    intro t
    rw [List.foldl_cons, ih (transplantEntry n t a), transplantEntry_keyshape]

/-- C7: during pretrained-weight transplantation, a source entry whose
(prefix-stripped) name is absent from the target or whose shape mismatches is
skipped and the loop continues with the remaining entries; the run never
aborts: the result always carries the success message, and the target's
parameter names and shapes are always preserved. -/
theorem claim_C7_partial_load (target rest : List (String × Param)) (bad : String × Param)
    (hbad : List.lookup (bad.1.drop 7) target = none ∨
      ∃ p, List.lookup (bad.1.drop 7) target = some p ∧ p.shape ≠ bad.2.shape) :
    (loadPretrainedBackbone target (bad :: rest) = loadPretrainedBackbone target rest) ∧
    (∀ source, (loadPretrainedBackbone target source).2
      = "Successfully loaded pretrained model") ∧
    (∀ source, ((loadPretrainedBackbone target source).1.map fun p => (p.1, p.2.shape))
      = target.map fun p => (p.1, p.2.shape)) := by
  have hskip : transplantEntry 7 target bad = target := by
    unfold transplantEntry
    rcases hbad with h | ⟨p, hp, hne⟩
    · rw [h]
    · rw [hp]
      dsimp only
      rw [if_neg hne]
  refine ⟨?_, fun _ => rfl, fun source => foldl_transplant_keyshape 7 source target⟩
  unfold loadPretrainedBackbone
  rw [List.foldl_cons, hskip]

/-- A one-entry target state dict for the C7 witness. -/
def targetEx : List (String × Param) := [("weight", { shape := [2], data := [1, 2] })]

/-- A source entry whose stripped name ("conv") is absent from `targetEx`. -/
def badEx : String × Param := ("module.conv", { shape := [3], data := [0, 0, 0] })

/-- Witness for C7: the absent-name entry is skipped and the summary message
is still emitted. -/
theorem claim_C7_witness :
    (List.lookup (badEx.1.drop 7) targetEx = none) ∧
    ((loadPretrainedBackbone targetEx [badEx] = loadPretrainedBackbone targetEx []) ∧
      (∀ source, (loadPretrainedBackbone targetEx source).2
        = "Successfully loaded pretrained model") ∧
      (∀ source, ((loadPretrainedBackbone targetEx source).1.map fun p => (p.1, p.2.shape))
        = targetEx.map fun p => (p.1, p.2.shape))) :=
  ⟨by decide,
    claim_C7_partial_load targetEx [] badEx (Or.inl (by decide))⟩

/-- C8 counterexample: on a perfectly uniform (all-background) segmentation,
the min-max normalization inside `SmoothEdgeLoss.forward` divides by
`max - min = 0` — there is no guard: the normalized map (and the whole loss)
is undefined (NaN in the source, `none` in this embedding), not a value in
[0, 1]. -/
theorem claim_C8_counterexample :
    minmaxNorm (meanC (gradAbsX (SmoothEdgeLoss.seg_foregroud segZero))) = none ∧
    SmoothEdgeLoss.forward depthEx imgEx segZero = none := by
  constructor <;>
    simp [SmoothEdgeLoss.forward, minmaxNorm, tvals, qmax, qmin, meanC, gradAbsX, gradAbsY,
      SmoothEdgeLoss.seg_foregroud, depthEx, imgEx, segZero, constT, List.ofFn_succ,
      Fin.sum_univ_succ, max_def, min_def]

/-- C8 amended: whenever the min-max normalization is defined (its tensor is
non-uniform, max ≠ min), every normalized entry lies in [0, 1]; but the
division is not guarded: on a perfectly uniform nonempty gradient map the
normalization (hence the loss) is undefined rather than any guarded value. -/
theorem claim_C8_amended (B C H W : ℕ) (g : Tensor4 B C H W) :
    (∀ (b : Fin B) (c : Fin C) (i : Fin H) (j : Fin W) (q : ℚ),
      ((minmaxNorm g).map fun n => n b c i j) = some q → 0 ≤ q ∧ q ≤ 1) ∧
    (∀ q : ℚ, 0 < B → 0 < C → 0 < H → 0 < W →
      (∀ b c i j, g b c i j = q) → minmaxNorm g = none) := by
  constructor
  · intro b c i j q hq
    unfold minmaxNorm at hq
    rcases e1 : qmax (tvals g) with _ | mx
    · rw [e1] at hq; cases hq
    rw [e1] at hq
    rcases e2 : qmin (tvals g) with _ | mn
    · rw [e2] at hq; cases hq
    rw [e2] at hq
    dsimp only at hq
    by_cases hdeg : mx = mn
    · simp [hdeg] at hq
    simp [hdeg] at hq
    obtain ⟨hmxmem, hmxle⟩ := qmax_spec e1
    obtain ⟨hmnmem, hmnle⟩ := qmin_spec e2
    have hmem := mem_tvals g b c i j
    have h1 : mn ≤ g b c i j := hmnle _ hmem
    have h2 : g b c i j ≤ mx := hmxle _ hmem
    have h3 : mn ≤ mx := hmnle mx hmxmem
    have h4 : mn < mx := lt_of_le_of_ne h3 fun hleq => hdeg hleq.symm
    rw [← hq]
    constructor
    · apply div_nonneg <;> linarith
    · rw [div_le_one (by linarith)]
      linarith
  · intro q hB hC hH hW huni
    have hmem : g ⟨0, hB⟩ ⟨0, hC⟩ ⟨0, hH⟩ ⟨0, hW⟩ ∈ tvals g :=
      mem_tvals g ⟨0, hB⟩ ⟨0, hC⟩ ⟨0, hH⟩ ⟨0, hW⟩
    have hne : tvals g ≠ [] := List.ne_nil_of_mem hmem
    have hall : ∀ x ∈ tvals g, x = q := by
      intro x hx
      obtain ⟨b, c, i, j, hbc⟩ := eq_of_mem_tvals hx
      rw [← hbc]
      exact huni b c i j
    unfold minmaxNorm
    rw [qmax_uniform hne hall, qmin_uniform hne hall]
    simp

/-- Witness for C8 amended: a defined normalization entry equal to 1 lies in
[0, 1], and the uniform all-zero gradient map yields `none`. -/
theorem claim_C8_witness :
    (((minmaxNorm (meanC (gradAbsX (SmoothEdgeLoss.seg_foregroud segEx)))).map
        fun n => n 0 0 0 0) = some 1) ∧
    ((0 : ℚ) ≤ 1 ∧ (1 : ℚ) ≤ 1) ∧
    (∀ b c i j, meanC (gradAbsX (SmoothEdgeLoss.seg_foregroud segZero)) b c i j = 0) ∧
    (minmaxNorm (meanC (gradAbsX (SmoothEdgeLoss.seg_foregroud segZero))) = none) := by
  have h1 : ((minmaxNorm (meanC (gradAbsX (SmoothEdgeLoss.seg_foregroud segEx)))).map
      fun n => n 0 0 0 0) = some 1 := by
    simp [minmaxNorm, tvals, qmax, qmin, meanC, gradAbsX, SmoothEdgeLoss.seg_foregroud,
      segEx, List.ofFn_succ, Fin.sum_univ_succ, max_def, min_def]
  have h2 : ∀ b c i j, meanC (gradAbsX (SmoothEdgeLoss.seg_foregroud segZero)) b c i j = 0 := by
    intro b c i j
    simp [meanC, gradAbsX, SmoothEdgeLoss.seg_foregroud, segZero, constT, Fin.sum_univ_succ]
  exact ⟨h1,
    (claim_C8_amended _ _ _ _ (meanC (gradAbsX (SmoothEdgeLoss.seg_foregroud segEx)))).1
      0 0 0 0 1 h1,
    h2,
    (claim_C8_amended _ _ _ _ (meanC (gradAbsX (SmoothEdgeLoss.seg_foregroud segZero)))).2
      0 (by norm_num) (by norm_num) (by norm_num) (by norm_num) h2⟩

/-- C9: in every epoch, with LR policy 'plateau' the scheduler is stepped
exactly once, with the validation score, after validation completes; with any
other non-null policy it is stepped exactly once, unconditionally, before the
training batches; with a null policy it is never stepped. -/
theorem claim_C9_scheduler (e : ℕ) (score : ℚ) :
    (epochTrace (some "plateau") e score
      = [TrainEv.trainPhase, TrainEv.validPhase, TrainEv.schedStepMetric score,
          TrainEv.writeMarker e, TrainEv.saveCkptEv]) ∧
    (∀ p : String, p ≠ "plateau" →
      epochTrace (some p) e score
        = [TrainEv.schedStepPlain, TrainEv.trainPhase, TrainEv.validPhase,
            TrainEv.writeMarker e, TrainEv.saveCkptEv]) ∧
    ((epochTrace none e score).countP (fun ev => isSchedStep ev) = 0) ∧
    ((epochTrace (some "plateau") e score).countP (fun ev => isSchedStep ev) = 1) ∧
    (∀ p : String, p ≠ "plateau" →
      (epochTrace (some p) e score).countP (fun ev => isSchedStep ev) = 1) := by
  refine ⟨?_, ?_, ?_, ?_, ?_⟩
  · simp [epochTrace]
  · intro p hp
    simp [epochTrace, hp]
  · simp [epochTrace, isSchedStep]
  · simp [epochTrace, isSchedStep]
  · intro p hp
    simp [epochTrace, hp, isSchedStep]

/-- Witness for C9 at the non-plateau policy "step". -/
theorem claim_C9_witness :
    (("step" : String) ≠ "plateau") ∧
    (epochTrace (some "step") 0 0
      = [TrainEv.schedStepPlain, TrainEv.trainPhase, TrainEv.validPhase,
          TrainEv.writeMarker 0, TrainEv.saveCkptEv]) ∧
    ((epochTrace (some "step") 0 0).countP (fun ev => isSchedStep ev) = 1) :=
  ⟨by decide, (claim_C9_scheduler 0 0).2.1 "step" (by decide),
    (claim_C9_scheduler 0 0).2.2.2.2 "step" (by decide)⟩

/-- C10: since `SmoothEdgeLoss` fixes alpha = beta = 0.5, at every pixel the
smoothness factor `max(0, depth_grad - alpha)` and the edge factor
`max(0, beta - depth_grad)` are never both strictly positive: one of them is
always 0, so at most one of the smoothness and edge penalties contributes a
nonzero value at any pixel. -/
theorem claim_C10_exclusive :
    (∀ g : ℚ, SmoothEdgeLoss.smoothFactor g = 0 ∨ SmoothEdgeLoss.edgeFactor g = 0) ∧
    (∀ (B Cd H W : ℕ) (gd : Tensor4 B Cd H W) (gi gs : Tensor4 B 1 H W)
        (b : Fin B) (c : Fin Cd) (i : Fin H) (j : Fin W),
      SmoothEdgeLoss.smoothTerm gd gi b c i j = 0 ∨
        SmoothEdgeLoss.edgeTerm gd gs b c i j = 0) := by
  have hfac : ∀ g : ℚ, SmoothEdgeLoss.smoothFactor g = 0 ∨ SmoothEdgeLoss.edgeFactor g = 0 := by
    intro g
    rcases le_total g SmoothEdgeLoss.alpha with h | h
    · left
      rw [SmoothEdgeLoss.smoothFactor]
      exact max_eq_left (by linarith)
    · right
      rw [SmoothEdgeLoss.edgeFactor]
      have hba : SmoothEdgeLoss.beta = SmoothEdgeLoss.alpha := rfl
      exact max_eq_left (by rw [hba]; linarith)
  refine ⟨hfac, fun B Cd H W gd gi gs b c i j => ?_⟩
  rcases hfac (gd b c i j) with h | h
  · left
    rw [SmoothEdgeLoss.smoothTerm, h, zero_mul]
  · right
    rw [SmoothEdgeLoss.edgeTerm, h, zero_mul]
